import Mathlib

set_option maxRecDepth 100000

/-!
# Shallow embedding of the tree reconciliation tool

This file embeds the core of a tool that mirrors a git source tree into a
perforce stream destination. The embedded components are the content digest
function `compute_digest`, the file records `GitFile` and `P4File`, the
case-folded path index built by `P4GitFileDiff.compare`, the pairwise
comparison `P4GitFileDiff.compare_matching`, the difference test
`P4GitFileDiff.has_difference`, and the staging plan produced by the `run`
method, modelled by `stagedActions` and `runStagedActions`.

Modelling conventions:
- file bytes are `List Nat` with each element below 256; a `GitFile` carries
  the bytes of the on-disk file that its `full_path` points to;
- the MD5 checksum from `hashlib.md5` is implemented in full (`md5Bytes`,
  `md5HexUpper`), with 32-bit words as `Nat` reduced modulo `2 ^ 32`;
- the Python dict comprehensions building the path indices are modelled by
  their lookup function `dictLookup` (last write wins) and by their key
  list `dictKeys`;
- fallible byte decoding (`bytes.decode` raising `UnicodeDecodeError`)
  is modelled with `Option`; a `none` propagates like the exception does;
- the p4 staging commands issued by `run` are modelled as the list of
  `P4Action` values produced in program order; file copies, `p4 flush` and
  the final `p4 revert -a` cleanup are not staging actions and are omitted.
-/

/-! ## Bytes and hexadecimal rendering -/

/-- Uppercase hexadecimal digit for a value below 16. -/
def hexDigitUpper (n : Nat) : Char :=
  Char.ofNat (if n < 10 then 48 + n else 55 + n)

/-- Two uppercase hexadecimal digits of one byte. -/
def byteToHexUpper (b : Nat) : List Char :=
  [hexDigitUpper (b / 16), hexDigitUpper (b % 16)]

/-- Little-endian byte rendering of a natural number, `count` bytes wide. -/
def natLEBytes (n : Nat) : Nat → List Nat
  | 0 => []
  | k + 1 => (n % 256) :: natLEBytes (n / 256) k

/-! ## MD5 (hashlib.md5)

A faithful implementation of MD5 over byte lists, used by `compute_digest`
exactly as the source uses `hashlib.md5`. Words are `Nat` values kept below
`2 ^ 32` by explicit reduction. -/

/-- Left rotation of a 32-bit word. -/
def rotl32 (x n : Nat) : Nat :=
  ((x <<< n) ||| (x >>> (32 - n))) % 4294967296

/-- The 64 MD5 round constants. -/
def md5K : List Nat :=
  [0xd76aa478, 0xe8c7b756, 0x242070db, 0xc1bdceee,
   0xf57c0faf, 0x4787c62a, 0xa8304613, 0xfd469501,
   0x698098d8, 0x8b44f7af, 0xffff5bb1, 0x895cd7be,
   0x6b901122, 0xfd987193, 0xa679438e, 0x49b40821,
   0xf61e2562, 0xc040b340, 0x265e5a51, 0xe9b6c7aa,
   0xd62f105d, 0x02441453, 0xd8a1e681, 0xe7d3fbc8,
   0x21e1cde6, 0xc33707d6, 0xf4d50d87, 0x455a14ed,
   0xa9e3e905, 0xfcefa3f8, 0x676f02d9, 0x8d2a4c8a,
   0xfffa3942, 0x8771f681, 0x6d9d6122, 0xfde5380c,
   0xa4beea44, 0x4bdecfa9, 0xf6bb4b60, 0xbebfbc70,
   0x289b7ec6, 0xeaa127fa, 0xd4ef3085, 0x04881d05,
   0xd9d4d039, 0xe6db99e5, 0x1fa27cf8, 0xc4ac5665,
   0xf4292244, 0x432aff97, 0xab9423a7, 0xfc93a039,
   0x655b59c3, 0x8f0ccc92, 0xffeff47d, 0x85845dd1,
   0x6fa87e4f, 0xfe2ce6e0, 0xa3014314, 0x4e0811a1,
   0xf7537e82, 0xbd3af235, 0x2ad7d2bb, 0xeb86d391]

/-- The 64 MD5 per-round shift amounts. -/
def md5S : List Nat :=
  [7, 12, 17, 22, 7, 12, 17, 22, 7, 12, 17, 22, 7, 12, 17, 22,
   5, 9, 14, 20, 5, 9, 14, 20, 5, 9, 14, 20, 5, 9, 14, 20,
   4, 11, 16, 23, 4, 11, 16, 23, 4, 11, 16, 23, 4, 11, 16, 23,
   6, 10, 15, 21, 6, 10, 15, 21, 6, 10, 15, 21, 6, 10, 15, 21]

/-- Nonlinear function and message index for MD5 round `i`. -/
def md5Mix (i b c d : Nat) : Nat × Nat :=
  if i < 16 then ((b &&& c) ||| ((4294967295 ^^^ b) &&& d), i)
  else if i < 32 then ((d &&& b) ||| ((4294967295 ^^^ d) &&& c), (5 * i + 1) % 16)
  else if i < 48 then (b ^^^ c ^^^ d, (3 * i + 5) % 16)
  else (c ^^^ (b ||| (4294967295 ^^^ d)), (7 * i) % 16)

/-- One MD5 round applied to the state `(a, b, c, d)`. -/
def md5Step (m : List Nat) (st : Nat × Nat × Nat × Nat) (i : Nat) :
    Nat × Nat × Nat × Nat :=
  let (a, b, c, d) := st
  let (f, g) := md5Mix i b c d
  let t := (a + f + md5K.getD i 0 + m.getD g 0) % 4294967296
  (d, (b + rotl32 t (md5S.getD i 0)) % 4294967296, b, c)

/-- Split a 64-byte chunk into 16 little-endian 32-bit words. -/
def wordsLE : List Nat → List Nat
  | b0 :: b1 :: b2 :: b3 :: rest =>
      (b0 + 256 * b1 + 65536 * b2 + 16777216 * b3) :: wordsLE rest
  | _ => []

/-- Process one 64-byte chunk of the padded message. -/
def md5Chunk (st : Nat × Nat × Nat × Nat) (chunk : List Nat) :
    Nat × Nat × Nat × Nat :=
  let m := wordsLE chunk
  let (a, b, c, d) := (List.range 64).foldl (md5Step m) st
  ((st.1 + a) % 4294967296, (st.2.1 + b) % 4294967296,
   (st.2.2.1 + c) % 4294967296, (st.2.2.2 + d) % 4294967296)

/-- Split a byte list into chunks of 64 bytes, with a structural fuel
argument so that the kernel can evaluate it; the fuel is always sufficient
because every step consumes at least one byte. -/
def chunks64Go : Nat → List Nat → List (List Nat)
  | 0, _ => []
  | _, [] => []
  | fuel + 1, b :: rest => (b :: rest).take 64 :: chunks64Go fuel ((b :: rest).drop 64)

/-- Split a byte list into chunks of 64 bytes. -/
def chunks64 (l : List Nat) : List (List Nat) :=
  chunks64Go l.length l

/-- MD5 padding: a 0x80 byte, zeros up to 56 modulo 64, then the bit length
as eight little-endian bytes. -/
def md5Pad (msg : List Nat) : List Nat :=
  msg ++ [128] ++ List.replicate ((119 - msg.length % 64) % 64) 0
      ++ natLEBytes (8 * msg.length) 8

/-- The 16 MD5 digest bytes of a message. -/
def md5Bytes (msg : List Nat) : List Nat :=
  let (a, b, c, d) :=
    (chunks64 (md5Pad msg)).foldl md5Chunk
      (1732584193, 4023233417, 2562383102, 271733878)
  natLEBytes a 4 ++ natLEBytes b 4 ++ natLEBytes c 4 ++ natLEBytes d 4

/-- The uppercase hexadecimal MD5 digest string of a message, matching
`hashlib.md5(...).hexdigest().upper()`. -/
def md5HexUpper (msg : List Nat) : String :=
  ⟨(md5Bytes msg).flatMap byteToHexUpper⟩

/-! ## Line splitting and line-ending replacement

`splitLines` models Python binary-mode line iteration (`for line in f`):
every line ends with the byte 10 except possibly the last, and the
concatenation of the lines is the file content. `replaceCrlf` models
`bytes.replace(b"\r\n", b"\n")`, the left-to-right non-overlapping
replacement. -/

/-- Python binary-mode line iteration over a byte list. -/
def splitLines : List Nat → List (List Nat)
  | [] => []
  | b :: rest =>
    if b = 10 then [10] :: splitLines rest
    else
      match splitLines rest with
      | [] => [[b]]
      | l :: ls => (b :: l) :: ls

/-- Replacement of every CRLF pair (13, 10) by a single LF byte (10),
after `bytes.replace(b"\r\n", b"\n")`. -/
def replaceCrlf : List Nat → List Nat
  | [] => []
  | [b] => [b]
  | b0 :: b1 :: rest =>
    if b0 = 13 ∧ b1 = 10 then 10 :: replaceCrlf rest
    else b0 :: replaceCrlf (b1 :: rest)

/-- Rewrite an LF-terminated content into its CRLF convention: every 10
becomes the pair (13, 10). Used to state line-ending invariance. -/
def crlfExpand : List Nat → List Nat
  | [] => []
  | b :: rest =>
    if b = 10 then 13 :: 10 :: crlfExpand rest
    else b :: crlfExpand rest

/-! ## UTF-8 and UTF-16 codecs

`utf8Decode` is strict UTF-8 decoding to code points, rejecting overlong
forms, surrogates, values above 0x10FFFF and truncated sequences, matching
`bytes.decode("utf-8")` with strict errors. `utf8Encode` is UTF-8 encoding
of code points. `utf16Decode` matches `bytes.decode("utf-16")`: a leading
byte-order mark selects the endianness and is stripped; without one the
data is read little endian (the native order on the platforms the tool
targets); unpaired surrogates and odd lengths are errors. -/

/-- The UTF-8 byte-order mark. -/
def bomUtf8 : List Nat := [239, 187, 191]

/-- Strict UTF-8 decoding of a byte list into code points. -/
def utf8Decode : List Nat → Option (List Nat)
  | [] => some []
  | b :: rest =>
    if b < 128 then (utf8Decode rest).map (fun cs => b :: cs)
    else if b < 194 then none
    else if b < 224 then
      match rest with
      | c1 :: rest1 =>
        if 128 ≤ c1 ∧ c1 < 192 then
          (utf8Decode rest1).map (fun cs => ((b - 192) * 64 + (c1 - 128)) :: cs)
        else none
      | [] => none
    else if b < 240 then
      match rest with
      | c1 :: c2 :: rest2 =>
        if (128 ≤ c1 ∧ c1 < 192) ∧ (128 ≤ c2 ∧ c2 < 192)
            ∧ (b ≠ 224 ∨ 160 ≤ c1) ∧ (b ≠ 237 ∨ c1 < 160) then
          (utf8Decode rest2).map
            (fun cs => ((b - 224) * 4096 + (c1 - 128) * 64 + (c2 - 128)) :: cs)
        else none
      | _ => none
    else if b < 245 then
      match rest with
      | c1 :: c2 :: c3 :: rest3 =>
        if (128 ≤ c1 ∧ c1 < 192) ∧ (128 ≤ c2 ∧ c2 < 192) ∧ (128 ≤ c3 ∧ c3 < 192)
            ∧ (b ≠ 240 ∨ 144 ≤ c1) ∧ (b ≠ 244 ∨ c1 < 144) then
          (utf8Decode rest3).map
            (fun cs => ((b - 240) * 262144 + (c1 - 128) * 4096
              + (c2 - 128) * 64 + (c3 - 128)) :: cs)
        else none
      | _ => none
    else none

/-- UTF-8 encoding of one code point. -/
def utf8EncodeChar (c : Nat) : List Nat :=
  if c < 128 then [c]
  else if c < 2048 then [192 + c / 64, 128 + c % 64]
  else if c < 65536 then [224 + c / 4096, 128 + c / 64 % 64, 128 + c % 64]
  else [240 + c / 262144, 128 + c / 4096 % 64, 128 + c / 64 % 64, 128 + c % 64]

/-- UTF-8 encoding of a code point list. -/
def utf8Encode (cs : List Nat) : List Nat :=
  cs.flatMap utf8EncodeChar

/-- Pair a byte list into 16-bit units, little endian; an odd trailing byte
is a decode error. -/
def bytesToUnitsLE : List Nat → Option (List Nat)
  | [] => some []
  | [_] => none
  | b0 :: b1 :: rest => (bytesToUnitsLE rest).map (fun us => (b0 + 256 * b1) :: us)

/-- Pair a byte list into 16-bit units, big endian. -/
def bytesToUnitsBE : List Nat → Option (List Nat)
  | [] => some []
  | [_] => none
  | b0 :: b1 :: rest => (bytesToUnitsBE rest).map (fun us => (256 * b0 + b1) :: us)

/-- Combine UTF-16 units into code points, rejecting unpaired surrogates. -/
def utf16CombineUnits : List Nat → Option (List Nat)
  | [] => some []
  | [u] => if u < 55296 ∨ 57344 ≤ u then some [u] else none
  | u :: v :: rest =>
    if u < 55296 ∨ 57344 ≤ u then
      (utf16CombineUnits (v :: rest)).map (fun cs => u :: cs)
    else if u < 56320 ∧ 56320 ≤ v ∧ v < 57344 then
      (utf16CombineUnits rest).map
        (fun cs => (65536 + (u - 55296) * 1024 + (v - 56320)) :: cs)
    else none

/-- UTF-16 decoding of a byte list as `bytes.decode("utf-16")` does: honour
and strip a leading byte-order mark, defaulting to little endian. -/
def utf16Decode (raw : List Nat) : Option (List Nat) :=
  match raw with
  | 255 :: 254 :: rest => (bytesToUnitsLE rest).bind utf16CombineUnits
  | 254 :: 255 :: rest => (bytesToUnitsBE rest).bind utf16CombineUnits
  | _ => (bytesToUnitsLE raw).bind utf16CombineUnits

/-! ## The content digest function `compute_digest`

The module-level function `compute_digest(path, file_type)` of the source,
with the file at `path` given by its byte content. The four branches follow
the source dispatch on the perforce file type:
- a type containing "text": hash each line with CRLF pairs replaced by LF;
- otherwise a type containing "utf8": hash each line decoded with the
  utf-8-sig codec (which strips a leading byte-order mark from the line),
  re-encoded as UTF-8, with CRLF pairs replaced by LF;
- otherwise a type containing "utf16": hash the whole content decoded from
  UTF-16, re-encoded as UTF-8, with CRLF pairs replaced by LF;
- otherwise: hash the raw bytes (the 64 KiB chunking of the source is the
  identity on the hashed stream).
A decode error makes the result `none`, modelling the propagated
`UnicodeDecodeError`. -/

/-- Containment of one character list in another as a contiguous segment. -/
def charsInfix (pat : List Char) : List Char → Bool
  | [] => pat.isEmpty
  | c :: rest => pat.isPrefixOf (c :: rest) || charsInfix pat rest

/-- The Python substring test `pat in s`. -/
def strIn (pat s : String) : Bool :=
  charsInfix pat.data s.data

/-- Strip a leading UTF-8 byte-order mark from a byte list, as the
utf-8-sig codec does. -/
def stripBomSig (l : List Nat) : List Nat :=
  if bomUtf8.isPrefixOf l then l.drop 3 else l

/-- The byte stream hashed for a line under the utf8 branch. -/
def utf8LineBytes (l : List Nat) : Option (List Nat) :=
  (utf8Decode (stripBomSig l)).map (fun cs => replaceCrlf (utf8Encode cs))

/-- The byte stream hashed under the text branch. -/
def textStream (content : List Nat) : List Nat :=
  ((splitLines content).map replaceCrlf).flatten

/-- The byte stream hashed under the utf8 branch. -/
def utf8Stream (content : List Nat) : Option (List Nat) :=
  ((splitLines content).mapM utf8LineBytes).map List.flatten

/-- The byte stream hashed under the utf16 branch. -/
def utf16Stream (content : List Nat) : Option (List Nat) :=
  (utf16Decode content).map (fun cs => replaceCrlf (utf8Encode cs))

/-- The module-level `compute_digest` of the source, over file content. -/
def compute_digest (content : List Nat) (file_type : String) : Option String :=
  if strIn "text" file_type then
    some (md5HexUpper (textStream content))
  else if strIn "utf8" file_type then
    (utf8Stream content).map md5HexUpper
  else if strIn "utf16" file_type then
    (utf16Stream content).map md5HexUpper
  else
    some (md5HexUpper content)

/-- Alias used inside the `GitFile` namespace, where the plain name
`compute_digest` would refer to the method being defined. -/
def computeDigestOfContent : List Nat → String → Option String :=
  compute_digest

/-! ## File records -/

/-- Lowercasing of one character as Python `str.lower` acts on ASCII; the
relative paths the tool compares are ASCII path strings. -/
def lowerChar (c : Char) : Char :=
  if 65 ≤ c.toNat ∧ c.toNat ≤ 90 then Char.ofNat (c.toNat + 32) else c

/-- Lowercasing of a path string, modelling `str.lower`. -/
def lowerStr (s : String) : String :=
  ⟨s.data.map lowerChar⟩

/-- A file of the source git tree. `content` carries the bytes of the file
on disk at `full_path`; `digest` is the lazily cached digest field, `none`
until first computed. -/
structure GitFile where
  root : String
  relative_path : String
  content : List Nat
  digest : Option String
  is_tracked : Bool
deriving DecidableEq

/-- A file of the destination perforce stream, from one `p4 fstat` record. -/
structure P4File where
  depot_path : String
  client_path : String
  head_action : String
  head_type : String
  head_change : String
  file_size : String
  digest : String
  relative_path : String
deriving DecidableEq

/-- The Python prefix test `s.startswith(pat)`. -/
def strStartsWith (s pat : String) : Bool :=
  pat.data.isPrefixOf s.data

/-- Decimal digits of a natural number, with structural fuel. -/
def decimalDigitsGo : Nat → Nat → List Char
  | 0, _ => []
  | fuel + 1, n =>
    if n < 10 then [Char.ofNat (48 + n)]
    else decimalDigitsGo fuel (n / 10) ++ [Char.ofNat (48 + n % 10)]

/-- The decimal rendering `str(n)` of a natural number. -/
def natDecimalString (n : Nat) : String :=
  ⟨decimalDigitsGo (n + 1) n⟩

/-- Python truthiness of the optional digest field: `None` and the empty
string are falsy. -/
def pyTruthy : Option String → Bool
  | none => false
  | some s => !s.isEmpty

/-- The `GitFile.compute_digest` method: computes the digest on first call
and caches it; later calls return the cached value. The returned pair is
the updated record and the returned string; `none` models a propagated
decode error. -/
def GitFile.compute_digest (g : GitFile) (file_type : String) :
    Option (GitFile × String) :=
  if pyTruthy g.digest then some (g, g.digest.getD "")
  else
    match computeDigestOfContent g.content file_type with
    | some d => some ({ g with digest := some d }, d)
    | none => none

/-! ## The case-folded path index

The source builds `src_map = {src.relative_path.lower(): src for src in
self.src_files}` and likewise for the destination. The Python dict is
modelled by its lookup function (`dictLookup`, the last record with the
key wins, exactly as repeated dict assignment overwrites) and by its key
list (`dictKeys`, each key once). -/

/-- Lookup in the dict comprehension index: the last record whose key
equals `k`. -/
def dictLookup {α : Type} (keyOf : α → String) (xs : List α) (k : String) :
    Option α :=
  (xs.filter (fun x => keyOf x == k)).getLast?

/-- The key list of the dict comprehension index. -/
def dictKeys {α : Type} (keyOf : α → String) (xs : List α) : List String :=
  (xs.map keyOf).dedup

/-- The case-folded key of a source file. -/
def gitKey (f : GitFile) : String := lowerStr f.relative_path

/-- The case-folded key of a destination file. -/
def p4Key (f : P4File) : String := lowerStr f.relative_path

/-! ## The diff `P4GitFileDiff` -/

/-- The result lists of `P4GitFileDiff`: exclusive source files, exclusive
destination files, shared keys whose literal paths differ in case, and
shared keys whose content differs. -/
structure P4GitFileDiff where
  src_only : List GitFile
  dst_only : List P4File
  case_mismatch : List (GitFile × P4File)
  changed : List (GitFile × P4File)
deriving DecidableEq

/-- The static method `P4GitFileDiff.compare_matching`: first literal path
comparison (a case difference reports no content check), then the size
short-circuit for binary head types, then the digest comparison. Returns
`(case_differs, content_differs, src, dst)` with the possibly updated
source record; `none` models a propagated digest error. -/
def P4GitFileDiff.compare_matching (src : GitFile) (dst : P4File) :
    Option (Bool × Bool × GitFile × P4File) :=
  if src.relative_path ≠ dst.relative_path then
    some (true, false, src, dst)
  else if strStartsWith dst.head_type "binary"
      ∧ natDecimalString src.content.length ≠ dst.file_size then
    some (false, true, src, dst)
  else
    match src.compute_digest dst.head_type with
    | some (src2, d) => some (false, decide (d ≠ dst.digest), src2, dst)
    | none => none

/-- The list `self.src_only` of `compare`: records of source keys absent
from the destination key set. -/
def srcOnlyList (src_files : List GitFile) (dst_files : List P4File) :
    List GitFile :=
  ((dictKeys gitKey src_files).filter
      (fun p => decide (p ∉ dictKeys p4Key dst_files))).filterMap
    (dictLookup gitKey src_files)

/-- The list `self.dst_only` of `compare`: records of destination keys
absent from the source key set. -/
def dstOnlyList (src_files : List GitFile) (dst_files : List P4File) :
    List P4File :=
  ((dictKeys p4Key dst_files).filter
      (fun p => decide (p ∉ dictKeys gitKey src_files))).filterMap
    (dictLookup p4Key dst_files)

/-- The shared case-folded keys of `compare`. -/
def sharedKeyList (src_files : List GitFile) (dst_files : List P4File) :
    List String :=
  (dictKeys gitKey src_files).filter
    (fun p => decide (p ∈ dictKeys p4Key dst_files))

/-- The `same_paths` record pairs of `compare`, resolved per shared key. -/
def sharedPairList (src_files : List GitFile) (dst_files : List P4File) :
    List (GitFile × P4File) :=
  (sharedKeyList src_files dst_files).filterMap
    (fun p =>
      match dictLookup gitKey src_files p, dictLookup p4Key dst_files p with
      | some s, some d => some (s, d)
      | _, _ => none)

/-- The `P4GitFileDiff.compare` method: build both case-folded indices,
collect exclusive paths, and classify every shared path with
`compare_matching` (the thread pool of the source only parallelises the
classifications; membership in the result lists is order independent; the
per-result branch `if case_differs ... elif content_differs ...` of the
collection loop is the pair of filters below). -/
def P4GitFileDiff.compare (src_files : List GitFile) (dst_files : List P4File) :
    Option P4GitFileDiff :=
  ((sharedPairList src_files dst_files).mapM
      (fun sd => P4GitFileDiff.compare_matching sd.1 sd.2)).map
    (fun results =>
      { src_only := srcOnlyList src_files dst_files
        dst_only := dstOnlyList src_files dst_files
        case_mismatch := results.filterMap
          (fun r => if r.1 then some (r.2.2.1, r.2.2.2) else none)
        changed := results.filterMap
          (fun r => if r.1 then none
            else if r.2.1 then some (r.2.2.1, r.2.2.2) else none) })

/-- The `P4GitFileDiff.has_difference` method:
`bool(self.changed or self.src_only or self.dst_only)`. -/
def P4GitFileDiff.has_difference (d : P4GitFileDiff) : Bool :=
  !d.changed.isEmpty || !d.src_only.isEmpty || !d.dst_only.isEmpty

/-! ## The staging plan of `P4HarmonizeGit.run`

After the diff is computed and files are copied, `run` issues p4 staging
commands in this order: per-pair `p4 edit` plus `p4 move` for case
mismatches when the server is case sensitive (modelled as one `caseRename`
action, the distinct case-rename action kind of the tool), then one
batched `p4 delete` over the set of destination-only client paths (plus
the case-mismatch client paths when the server is case insensitive), then
one batched `p4 add`, then one batched `p4 edit`. -/

/-- A staging action issued against the destination perforce server. -/
inductive P4Action where
  | caseRename (oldPath newPath : String)
  | del (path : String)
  | add (path : String)
  | edit (path : String)
deriving DecidableEq

/-- Destination workspace path of a source file, after `get_dst_path`. -/
def getDstPath (dstRoot : String) (src : GitFile) : String :=
  dstRoot ++ "/" ++ src.relative_path

/-- The delete path set of `run`: destination-only client paths, plus the
case-mismatch client paths on a case-insensitive server. The Python set is
modelled as a deduplicated list. -/
def filesToDelete (diff : P4GitFileDiff) (caseSensitive : Bool) : List String :=
  (diff.dst_only.map (fun d => d.client_path)
    ++ if !caseSensitive ∧ diff.case_mismatch ≠ [] then
        diff.case_mismatch.map (fun sd => sd.2.client_path)
      else []).dedup

/-- The staging actions of one `run`, in the order the source issues them. -/
def stagedActions (dstRoot : String) (diff : P4GitFileDiff)
    (caseSensitive : Bool) : List P4Action :=
  (if caseSensitive ∧ diff.case_mismatch ≠ [] then
      diff.case_mismatch.map
        (fun sd => P4Action.caseRename sd.2.client_path (getDstPath dstRoot sd.1))
    else [])
  ++ (filesToDelete diff caseSensitive).map P4Action.del
  ++ diff.src_only.map (fun f => P4Action.add (getDstPath dstRoot f))
  ++ diff.changed.map (fun sd => P4Action.edit (getDstPath dstRoot sd.1))

/-- The staging actions of `run` including its early return: when
`has_difference` is false, `run` reports that everything matches and stages
nothing. -/
def runStagedActions (dstRoot : String) (diff : P4GitFileDiff)
    (caseSensitive : Bool) : List P4Action :=
  if diff.has_difference then stagedActions dstRoot diff caseSensitive else []

/-- Kind test: is the action a delete. -/
def P4Action.isDelete : P4Action → Bool
  | .del _ => true
  | _ => false

/-- Kind test: is the action an add or an edit. -/
def P4Action.isAddOrEdit : P4Action → Bool
  | .add _ => true
  | .edit _ => true
  | _ => false

/-! ## Key sets of a diff, for the partition statement -/

/-- Case-folded keys of the source-only records of a diff. -/
def srcOnlyKeys (d : P4GitFileDiff) : List String :=
  d.src_only.map gitKey

/-- Case-folded keys of the destination-only records of a diff. -/
def dstOnlyKeys (d : P4GitFileDiff) : List String :=
  d.dst_only.map p4Key

/-- Case-folded keys of the case-mismatch pairs of a diff. -/
def caseMismatchKeys (d : P4GitFileDiff) : List String :=
  d.case_mismatch.map (fun sd => gitKey sd.1)

/-- Case-folded keys of the changed pairs of a diff. -/
def changedKeys (d : P4GitFileDiff) : List String :=
  d.changed.map (fun sd => gitKey sd.1)

/-- Union of the case-folded keys of both trees. -/
def unionKeys (src_files : List GitFile) (dst_files : List P4File) : List String :=
  dictKeys gitKey src_files ++ dictKeys p4Key dst_files

/-- The implicit unchanged remainder: keys of the union in none of the four
explicit sets. -/
def unchangedKeys (src_files : List GitFile) (dst_files : List P4File)
    (d : P4GitFileDiff) : List String :=
  (unionKeys src_files dst_files).filter
    (fun k => decide (k ∉ srcOnlyKeys d ∧ k ∉ dstOnlyKeys d
      ∧ k ∉ caseMismatchKeys d ∧ k ∉ changedKeys d))

/-- In how many of the five classification sets the key `k` appears. -/
def classCount (src_files : List GitFile) (dst_files : List P4File)
    (d : P4GitFileDiff) (k : String) : Nat :=
  (if k ∈ srcOnlyKeys d then 1 else 0)
  + (if k ∈ dstOnlyKeys d then 1 else 0)
  + (if k ∈ caseMismatchKeys d then 1 else 0)
  + (if k ∈ changedKeys d then 1 else 0)
  + (if k ∈ unchangedKeys src_files dst_files d then 1 else 0)

/-! ## Helper lemmas -/

/-- The MD5 digest string is never empty. -/
theorem md5HexUpper_ne_empty (msg : List Nat) : md5HexUpper msg ≠ "" := by
  unfold md5HexUpper md5Bytes
  rcases hfold : (chunks64 (md5Pad msg)).foldl md5Chunk
      (1732584193, 4023233417, 2562383102, 271733878) with ⟨a, b, c, d⟩
  simp [natLEBytes, byteToHexUpper, String.ext_iff]

/-- Every digest string returned by `compute_digest` is nonempty. -/
theorem compute_digest_ne_empty (content : List Nat) (file_type : String)
    (d : String) (h : compute_digest content file_type = some d) : d ≠ "" := by
  unfold compute_digest at h
  split at h
  · exact (Option.some_inj.mp h) ▸ md5HexUpper_ne_empty _
  · split at h
    · rcases Option.map_eq_some'.mp h with ⟨s, _, rfl⟩
      exact md5HexUpper_ne_empty _
    · split at h
      · rcases Option.map_eq_some'.mp h with ⟨s, _, rfl⟩
        exact md5HexUpper_ne_empty _
      · exact (Option.some_inj.mp h) ▸ md5HexUpper_ne_empty _

/-- The relative path of a record is unchanged by the digest method. -/
theorem GitFile.compute_digest_relative_path (g : GitFile) (ft : String)
    (g2 : GitFile) (s : String) (h : g.compute_digest ft = some (g2, s)) :
    g2.relative_path = g.relative_path := by
  unfold GitFile.compute_digest at h
  split at h
  · exact congrArg GitFile.relative_path
      (congrArg Prod.fst (Option.some_inj.mp h)).symm
  · rcases hcd : computeDigestOfContent g.content ft with _ | d <;> rw [hcd] at h
    · exact absurd h (by simp)
    · have := (Option.some_inj.mp h)
      have hg2 : g2 = { g with digest := some d } := (congrArg Prod.fst this).symm
      rw [hg2]

/-- C4. For every pair of records whose literal relative paths differ,
`compare_matching` reports a case mismatch at once: it returns
`(true, false, src, dst)` with the source record untouched, so no size
check is made and no digest is computed, whatever the content and the
declared content kind are. -/
theorem compare_matching_case_first (src : GitFile) (dst : P4File)
    (h : src.relative_path ≠ dst.relative_path) :
    P4GitFileDiff.compare_matching src dst = some (true, false, src, dst) := by
  unfold P4GitFileDiff.compare_matching
  rw [if_pos h]

/-- Witness for C4 at a pair differing only in path case: the result is a
case mismatch with the source record returned unchanged. -/
theorem compare_matching_case_first_witness :
    P4GitFileDiff.compare_matching ⟨"r", "B.bin", [49], none, true⟩
      ⟨"//d/b.bin", "/c/b.bin", "add", "binary", "7", "99", "X", "b.bin"⟩
      = some (true, false, ⟨"r", "B.bin", [49], none, true⟩,
        ⟨"//d/b.bin", "/c/b.bin", "add", "binary", "7", "99", "X", "b.bin"⟩) :=
  compare_matching_case_first _ _ (by decide)

/-- C5. For every pair with identical literal paths whose destination head
type starts with "binary", a difference between the decimal rendering of
the on-disk source size and the destination-reported size string classifies
the pair as changed at once: the result is `(false, true, src, dst)` with
the source record untouched, so the digest function is never invoked. -/
theorem compare_matching_binary_size_short_circuit (src : GitFile) (dst : P4File)
    (h1 : src.relative_path = dst.relative_path)
    (h2 : strStartsWith dst.head_type "binary" = true)
    (h3 : natDecimalString src.content.length ≠ dst.file_size) :
    P4GitFileDiff.compare_matching src dst = some (false, true, src, dst) := by
  unfold P4GitFileDiff.compare_matching
  rw [if_neg (by simp [h1]), if_pos (by exact ⟨by simp [h2], h3⟩)]

/-- Witness for C5 at a binary pair of differing sizes: classified changed
with the source record returned unchanged (no digest cached). -/
theorem compare_matching_binary_size_short_circuit_witness :
    P4GitFileDiff.compare_matching ⟨"r", "b.bin", [49], none, true⟩
      ⟨"//d/b.bin", "/c/b.bin", "add", "binary+F", "7", "99", "X", "b.bin"⟩
      = some (false, true, ⟨"r", "b.bin", [49], none, true⟩,
        ⟨"//d/b.bin", "/c/b.bin", "add", "binary+F", "7", "99", "X", "b.bin"⟩) :=
  compare_matching_binary_size_short_circuit _ _ (by decide) (by decide) (by decide)

/-- C10. When the exclusive and changed lists are all empty, the
`has_difference` test is false even when case mismatches exist, so `run`
returns early and stages nothing for them. -/
theorem has_difference_ignores_case_mismatch (dstRoot : String)
    (diff : P4GitFileDiff) (caseSensitive : Bool)
    (h1 : diff.src_only = []) (h2 : diff.dst_only = []) (h3 : diff.changed = [])
    (h4 : diff.case_mismatch ≠ []) :
    diff.has_difference = false
      ∧ runStagedActions dstRoot diff caseSensitive = [] := by
  have hd : diff.has_difference = false := by
    simp [P4GitFileDiff.has_difference, h1, h2, h3]
  exact ⟨hd, by simp [runStagedActions, hd]⟩

/-- Witness for C10 at a diff holding one case mismatch and nothing else:
no staging action is produced. -/
theorem has_difference_ignores_case_mismatch_witness :
    (P4GitFileDiff.has_difference ⟨[], [], [(⟨"r", "A.txt", [], none, true⟩,
        ⟨"//d/a.txt", "/c/a.txt", "add", "text", "7", "0", "X", "a.txt"⟩)], []⟩) = false
      ∧ runStagedActions "root" ⟨[], [], [(⟨"r", "A.txt", [], none, true⟩,
        ⟨"//d/a.txt", "/c/a.txt", "add", "text", "7", "0", "X", "a.txt"⟩)], []⟩ false = [] :=
  has_difference_ignores_case_mismatch _ _ _ rfl rfl rfl (by decide)

/-- C9. The cached digest is write once: after any successful call of the
digest method, the digest field holds the returned string, and every later
call with any content kind (including a kind under which recomputation
would fail or differ) returns the same record and string unchanged. -/
theorem gitfile_digest_write_once (g : GitFile) (ft : String)
    (g2 : GitFile) (s : String) (h : g.compute_digest ft = some (g2, s)) :
    g2.digest = some s ∧ ∀ ft2, g2.compute_digest ft2 = some (g2, s) := by
  unfold GitFile.compute_digest at h
  by_cases hp : pyTruthy g.digest
  · rw [if_pos hp] at h
    rcases hd : g.digest with _ | s0
    · rw [hd] at hp; exact absurd hp (by simp [pyTruthy])
    · rw [hd] at h hp
      have hg2 : g2 = g := (congrArg Prod.fst (Option.some_inj.mp h)).symm
      have hs : s = s0 := (congrArg Prod.snd (Option.some_inj.mp h)).symm
      subst hg2; subst hs
      refine ⟨hd, fun ft2 => ?_⟩
      unfold GitFile.compute_digest
      rw [if_pos (by rw [hd]; exact hp), hd]
      rfl
  · rw [if_neg hp] at h
    rcases hcd : computeDigestOfContent g.content ft with _ | d <;> rw [hcd] at h
    · exact absurd h (by simp)
    · have heq := Option.some_inj.mp h
      have hg2 : g2 = { g with digest := some d } := (congrArg Prod.fst heq).symm
      have hs : s = d := (congrArg Prod.snd heq).symm
      have hne : d ≠ "" := compute_digest_ne_empty g.content ft d hcd
      subst hg2; subst hs
      constructor
      · rfl
      · intro ft2
        unfold GitFile.compute_digest
        have hie : s.isEmpty = false := by
          rcases hh : s.isEmpty
          · rfl
          · exact absurd ((String.isEmpty_iff s).mp hh) hne
        rw [if_pos (by simp [pyTruthy, hie])]
        rfl

/-- Witness for C9: a record whose digest was cached under the binary kind
returns the cached digest unchanged when asked again with the utf16 kind,
even though recomputing under utf16 would fail on its one-byte content. -/
theorem gitfile_digest_write_once_witness :
    GitFile.compute_digest ⟨"r", "f.bin", [104], some (md5HexUpper [104]), true⟩ "utf16"
      = some (⟨"r", "f.bin", [104], some (md5HexUpper [104]), true⟩, md5HexUpper [104]) :=
  (gitfile_digest_write_once ⟨"r", "f.bin", [104], none, true⟩ "binary"
    ⟨"r", "f.bin", [104], some (md5HexUpper [104]), true⟩ (md5HexUpper [104])
    (by decide)).2 "utf16"

/-- Counterexample for C3: two distinct records whose relative paths agree
after case folding are both accepted; the index built by `compare` maps the
shared key to the later record, silently discarding the earlier one, and
`compare` completes without any error: last-write-wins overwriting occurs. -/
theorem index_last_write_wins_counterexample :
    dictLookup gitKey
        [⟨"r", "A.txt", [], none, true⟩, ⟨"r", "a.txt", [49], none, true⟩] "a.txt"
      = some ⟨"r", "a.txt", [49], none, true⟩
    ∧ (⟨"r", "A.txt", [], none, true⟩ : GitFile) ≠ ⟨"r", "a.txt", [49], none, true⟩
    ∧ gitKey ⟨"r", "A.txt", [], none, true⟩ = gitKey ⟨"r", "a.txt", [49], none, true⟩
    ∧ P4GitFileDiff.compare
        [⟨"r", "A.txt", [], none, true⟩, ⟨"r", "a.txt", [49], none, true⟩] []
      = some ⟨[⟨"r", "a.txt", [49], none, true⟩], [], [], []⟩ := by
  refine ⟨by decide, by decide, by decide, by decide⟩

/-- C3 as amended: duplicate case-folded paths within one tree are resolved
by silent last-write-wins; the record occurring last in the input list is
the one the index returns for the shared key. -/
theorem index_last_write_wins (xs : List GitFile) (x : GitFile) (k : String)
    (h : gitKey x = k) : dictLookup gitKey (xs ++ [x]) k = some x := by
  unfold dictLookup
  rw [List.filter_append]
  have hx : List.filter (fun y => gitKey y == k) [x] = [x] := by
    simp [List.filter, h]
  rw [hx, List.getLast?_concat]

/-- Witness for the amended C3: with two case-folded duplicates in the
source list, the index returns the later record. -/
theorem index_last_write_wins_witness :
    dictLookup gitKey
        [⟨"r", "A.txt", [], none, true⟩, ⟨"r", "a.txt", [49], none, true⟩] "a.txt"
      = some ⟨"r", "a.txt", [49], none, true⟩ :=
  index_last_write_wins [⟨"r", "A.txt", [], none, true⟩]
    ⟨"r", "a.txt", [49], none, true⟩ "a.txt" (by decide)

/-- C8. In every run that stages changes, the staged action list splits
into a first segment free of adds and edits and a second segment free of
deletes: every delete (destination-only paths, plus case-mismatch paths on
a case-insensitive server) is issued before every add and edit; and every
destination-only record yields exactly one delete of its client path. -/
theorem run_orders_deletes_before_adds_edits (dstRoot : String)
    (diff : P4GitFileDiff) (caseSensitive : Bool)
    (h : diff.has_difference = true) :
    ∃ pre post, runStagedActions dstRoot diff caseSensitive = pre ++ post
      ∧ (∀ a ∈ pre, a.isAddOrEdit = false)
      ∧ (∀ a ∈ post, a.isDelete = false)
      ∧ ∀ d ∈ diff.dst_only,
          (runStagedActions dstRoot diff caseSensitive).count
            (P4Action.del d.client_path) = 1 := by
  have hrun : runStagedActions dstRoot diff caseSensitive
      = stagedActions dstRoot diff caseSensitive := by
    simp [runStagedActions, h]
  refine ⟨(if caseSensitive ∧ diff.case_mismatch ≠ [] then
      diff.case_mismatch.map
        (fun sd => P4Action.caseRename sd.2.client_path (getDstPath dstRoot sd.1))
    else []) ++ (filesToDelete diff caseSensitive).map P4Action.del,
    diff.src_only.map (fun f => P4Action.add (getDstPath dstRoot f))
      ++ diff.changed.map (fun sd => P4Action.edit (getDstPath dstRoot sd.1)),
    ?_, ?_, ?_, ?_⟩
  · rw [hrun]
    unfold stagedActions
    simp [List.append_assoc]
  · intro a ha
    rcases List.mem_append.mp ha with h1 | h2
    · by_cases hc : caseSensitive ∧ diff.case_mismatch ≠ []
      · rw [if_pos hc] at h1
        rcases List.mem_map.mp h1 with ⟨sd, _, rfl⟩
        rfl
      · rw [if_neg hc] at h1
        exact absurd h1 (List.not_mem_nil a)
    · rcases List.mem_map.mp h2 with ⟨p, _, rfl⟩
      rfl
  · intro a ha
    rcases List.mem_append.mp ha with h1 | h2
    · rcases List.mem_map.mp h1 with ⟨f, _, rfl⟩
      rfl
    · rcases List.mem_map.mp h2 with ⟨sd, _, rfl⟩
      rfl
  · intro d hd
    rw [hrun]
    have hmem : d.client_path ∈ filesToDelete diff caseSensitive := by
      unfold filesToDelete
      rw [List.mem_dedup]
      exact List.mem_append.mpr (Or.inl (List.mem_map.mpr ⟨d, hd, rfl⟩))
    have hnd : (filesToDelete diff caseSensitive).Nodup := List.nodup_dedup _
    have hinj : Function.Injective P4Action.del := by
      intro a b hab
      injection hab
    unfold stagedActions
    rw [List.count_append, List.count_append, List.count_append]
    have c1 : (if caseSensitive ∧ diff.case_mismatch ≠ [] then
        diff.case_mismatch.map
          (fun sd => P4Action.caseRename sd.2.client_path (getDstPath dstRoot sd.1))
      else []).count (P4Action.del d.client_path) = 0 := by
      rw [List.count_eq_zero]
      intro hmem2
      by_cases hc : caseSensitive ∧ diff.case_mismatch ≠ []
      · rw [if_pos hc] at hmem2
        rcases List.mem_map.mp hmem2 with ⟨sd, _, heq⟩
        exact absurd heq (by simp)
      · rw [if_neg hc] at hmem2
        exact absurd hmem2 (List.not_mem_nil _)
    have c2 : ((filesToDelete diff caseSensitive).map P4Action.del).count
        (P4Action.del d.client_path) = 1 := by
      rw [List.count_map_of_injective _ _ hinj]
      exact List.count_eq_one_of_mem hnd hmem
    have c3 : (diff.src_only.map
        (fun f => P4Action.add (getDstPath dstRoot f))).count
        (P4Action.del d.client_path) = 0 := by
      rw [List.count_eq_zero]
      intro hmem2
      rcases List.mem_map.mp hmem2 with ⟨f, _, heq⟩
      exact absurd heq (by simp)
    have c4 : (diff.changed.map
        (fun sd => P4Action.edit (getDstPath dstRoot sd.1))).count
        (P4Action.del d.client_path) = 0 := by
      rw [List.count_eq_zero]
      intro hmem2
      rcases List.mem_map.mp hmem2 with ⟨sd, _, heq⟩
      exact absurd heq (by simp)
    rw [c1, c2, c3, c4]

/-- Witness for C8 at a diff with one destination-only file on a
case-insensitive server: the staged actions split as required and the file
receives exactly one delete. -/
theorem run_orders_deletes_before_adds_edits_witness :
    ∃ pre post, runStagedActions "root"
        ⟨[], [⟨"//d/old.dat", "/c/old.dat", "add", "binary", "7", "9", "X", "old.dat"⟩],
          [], []⟩ false = pre ++ post
      ∧ (∀ a ∈ pre, a.isAddOrEdit = false)
      ∧ (∀ a ∈ post, a.isDelete = false)
      ∧ ∀ d ∈ ([⟨"//d/old.dat", "/c/old.dat", "add", "binary", "7", "9", "X",
            "old.dat"⟩] : List P4File),
          (runStagedActions "root"
            ⟨[], [⟨"//d/old.dat", "/c/old.dat", "add", "binary", "7", "9", "X",
              "old.dat"⟩], [], []⟩ false).count (P4Action.del d.client_path) = 1 :=
  run_orders_deletes_before_adds_edits "root" _ false (by decide)

/-! ## Lemmas about line splitting and CRLF replacement -/

/-- A byte other than 13 passes through `replaceCrlf` unchanged. -/
theorem replaceCrlf_cons_ne (b : Nat) (l : List Nat) (hb : b ≠ 13) :
    replaceCrlf (b :: l) = b :: replaceCrlf l := by
  cases l with
  | nil => rfl
  | cons b1 t =>
    simp only [replaceCrlf]
    rw [if_neg (by intro hh; exact hb hh.1)]

/-- A 13 byte not followed by a 10 byte passes through `replaceCrlf`. -/
theorem replaceCrlf_cons13 (l : List Nat) (hl : l.head? ≠ some 10) :
    replaceCrlf (13 :: l) = 13 :: replaceCrlf l := by
  cases l with
  | nil => rfl
  | cons b1 t =>
    have hb1 : b1 ≠ 10 := by
      intro hh
      exact hl (by simp [hh])
    simp only [replaceCrlf]
    rw [if_neg (by intro hh; exact hb1 hh.2)]

/-- A CRLF pair is replaced by a single LF byte. -/
theorem replaceCrlf_crlf (l : List Nat) :
    replaceCrlf (13 :: 10 :: l) = 10 :: replaceCrlf l := by
  simp only [replaceCrlf]
  rw [if_pos (by simp)]

/-- A newline byte opens a one byte line. -/
theorem splitLines_cons10 (t : List Nat) :
    splitLines (10 :: t) = [10] :: splitLines t := by
  simp [splitLines]

/-- A non-newline byte before a lineless remainder forms a single line. -/
theorem splitLines_cons_ne10_nil (b : Nat) (t : List Nat) (hb : b ≠ 10)
    (ht : splitLines t = []) : splitLines (b :: t) = [[b]] := by
  unfold splitLines
  rw [if_neg hb, ht]

/-- A non-newline byte is prepended to the first line of the remainder. -/
theorem splitLines_cons_ne10_cons (b : Nat) (t : List Nat) (l : List Nat)
    (ls : List (List Nat)) (hb : b ≠ 10) (ht : splitLines t = l :: ls) :
    splitLines (b :: t) = (b :: l) :: ls := by
  unfold splitLines
  rw [if_neg hb, ht]

/-- Only the empty content has no lines. -/
theorem splitLines_eq_nil (c : List Nat) : splitLines c = [] ↔ c = [] := by
  constructor
  · intro h
    cases c with
    | nil => rfl
    | cons b t =>
      exfalso
      by_cases hb : b = 10
      · subst hb
        rw [splitLines_cons10] at h
        exact absurd h (by simp)
      · rcases ht : splitLines t with _ | ⟨l, ls⟩
        · rw [splitLines_cons_ne10_nil b t hb ht] at h
          exact absurd h (by simp)
        · rw [splitLines_cons_ne10_cons b t l ls hb ht] at h
          exact absurd h (by simp)
  · intro h
    subst h
    rfl

/-- The first line starts with the first byte of the content. -/
theorem splitLines_cons_head (b : Nat) (t : List Nat) (m : List Nat)
    (ms : List (List Nat)) (h : splitLines (b :: t) = m :: ms) :
    ∃ m2, m = b :: m2 := by
  by_cases hb : b = 10
  · subst hb
    rw [splitLines_cons10] at h
    injection h with h1 _
    exact ⟨[], h1.symm⟩
  · rcases ht : splitLines t with _ | ⟨l, ls⟩
    · rw [splitLines_cons_ne10_nil b t hb ht] at h
      injection h with h1 _
      exact ⟨[], h1.symm⟩
    · rw [splitLines_cons_ne10_cons b t l ls hb ht] at h
      injection h with h1 _
      exact ⟨l, h1.symm⟩

/-- The first line is a prefix of the content. -/
theorem splitLines_first_front (c : List Nat) (l : List Nat)
    (ls : List (List Nat)) (h : splitLines c = l :: ls) : l <+: c := by
  induction c generalizing l ls with
  | nil => simp [splitLines] at h
  | cons b t ih =>
    by_cases hb : b = 10
    · subst hb
      rw [splitLines_cons10] at h
      injection h with h1 _
      subst h1
      exact ⟨t, rfl⟩
    · rcases ht : splitLines t with _ | ⟨m, ms⟩
      · rw [splitLines_cons_ne10_nil b t hb ht] at h
        injection h with h1 _
        subst h1
        have htn : t = [] := (splitLines_eq_nil t).mp ht
        subst htn
        exact ⟨[], rfl⟩
      · rw [splitLines_cons_ne10_cons b t m ms hb ht] at h
        injection h with h1 _
        subst h1
        rcases ih m ms ht with ⟨r, hr⟩
        exact ⟨r, by simp [← hr]⟩

/-- The per-line CRLF replacement of the text branch equals the global
CRLF replacement of the whole content: line splitting cuts only after LF
bytes, so it never separates a CR from a following LF. -/
theorem textStream_eq_replaceCrlf (c : List Nat) :
    textStream c = replaceCrlf c := by
  induction c with
  | nil => rfl
  | cons b t ih =>
    unfold textStream at ih ⊢
    by_cases hb : b = 10
    · subst hb
      rw [splitLines_cons10]
      simp only [List.map_cons, List.flatten_cons]
      rw [replaceCrlf_cons_ne 10 t (by decide)]
      simpa [replaceCrlf] using ih
    · by_cases hb13 : b = 13
      · subst hb13
        cases t with
        | nil => decide
        | cons b1 t2 =>
          by_cases h1 : b1 = 10
          · subst h1
            rw [replaceCrlf_crlf]
            rw [splitLines_cons_ne10_cons 13 (10 :: t2) [10] (splitLines t2)
              (by decide) (splitLines_cons10 t2)]
            simp only [List.map_cons, List.flatten_cons]
            have ih2 : (List.map replaceCrlf (splitLines t2)).flatten
                = replaceCrlf t2 := by
              rw [splitLines_cons10] at ih
              simp only [List.map_cons, List.flatten_cons] at ih
              rw [replaceCrlf_cons_ne 10 t2 (by decide)] at ih
              simpa [replaceCrlf] using ih
            rw [ih2, replaceCrlf_crlf]
            rfl
          · rcases ht : splitLines (b1 :: t2) with _ | ⟨m, ms⟩
            · exact absurd ((splitLines_eq_nil _).mp ht) (by simp)
            · obtain ⟨m2, rfl⟩ := splitLines_cons_head b1 t2 m ms ht
              rw [splitLines_cons_ne10_cons 13 (b1 :: t2) (b1 :: m2) ms
                (by decide) ht]
              simp only [List.map_cons, List.flatten_cons]
              rw [replaceCrlf_cons13 (b1 :: m2) (by simp [h1]),
                replaceCrlf_cons13 (b1 :: t2) (by simp [h1])]
              rw [ht] at ih
              simp only [List.map_cons, List.flatten_cons] at ih
              simp [← ih]
      · rcases ht : splitLines t with _ | ⟨m, ms⟩
        · have htn : t = [] := (splitLines_eq_nil t).mp ht
          subst htn
          rw [splitLines_cons_ne10_nil b [] hb ht]
          simp [replaceCrlf]
        · rw [splitLines_cons_ne10_cons b t m ms hb ht]
          simp only [List.map_cons, List.flatten_cons]
          rw [replaceCrlf_cons_ne b m hb13, replaceCrlf_cons_ne b t hb13]
          rw [ht] at ih
          simp only [List.map_cons, List.flatten_cons] at ih
          simp [← ih]

/-- Content without CR bytes is unchanged by the CRLF replacement. -/
theorem replaceCrlf_of_no_cr (c : List Nat) (h : (13 : Nat) ∉ c) :
    replaceCrlf c = c := by
  induction c with
  | nil => rfl
  | cons b t ih =>
    have hb : b ≠ 13 := by
      intro hh
      exact h (by simp [hh])
    rw [replaceCrlf_cons_ne b t hb, ih (by intro hh; exact h (by simp [hh]))]

/-- The CRLF replacement undoes the CRLF expansion of CR-free content. -/
theorem replaceCrlf_crlfExpand (c : List Nat) (h : (13 : Nat) ∉ c) :
    replaceCrlf (crlfExpand c) = c := by
  induction c with
  | nil => rfl
  | cons b t ih =>
    have ht : (13 : Nat) ∉ t := by
      intro hh
      exact h (by simp [hh])
    by_cases hb : b = 10
    · subst hb
      show replaceCrlf (13 :: 10 :: crlfExpand t) = 10 :: t
      rw [replaceCrlf_crlf, ih ht]
    · have hb13 : b ≠ 13 := by
        intro hh
        exact h (by simp [hh])
      show replaceCrlf (if b = 10 then 13 :: 10 :: crlfExpand t
        else b :: crlfExpand t) = b :: t
      rw [if_neg hb, replaceCrlf_cons_ne b _ hb13, ih ht]

/-- Counterexample for C2: a lone CR byte is not replaced before hashing
under the text kind (it is fed to the checksum unchanged), and two files
differing only by lone-CR versus LF receive different text digests. -/
theorem text_digest_lone_cr_counterexample :
    textStream [97, 13, 98] = [97, 13, 98]
    ∧ compute_digest [97, 13, 98] "text" ≠ compute_digest [97, 10, 98] "text" :=
  ⟨by decide, by decide⟩

/-- C2 as amended: under the text kind the bytes fed to the checksum are
exactly the content with every CRLF pair replaced by LF (lone CR bytes
pass through), and consequently two files that differ only by CRLF versus
LF line endings receive identical digest strings. -/
theorem text_digest_crlf_only (c : List Nat) (h13 : (13 : Nat) ∉ c) :
    compute_digest c "text" = some (md5HexUpper (replaceCrlf c))
    ∧ compute_digest (crlfExpand c) "text" = compute_digest c "text" := by
  have htext : ∀ cc : List Nat,
      compute_digest cc "text" = some (md5HexUpper (textStream cc)) := by
    intro cc
    unfold compute_digest
    rw [if_pos (by decide)]
  refine ⟨?_, ?_⟩
  · rw [htext, textStream_eq_replaceCrlf]
  · rw [htext, htext, textStream_eq_replaceCrlf, textStream_eq_replaceCrlf,
      replaceCrlf_of_no_cr c h13, replaceCrlf_crlfExpand c h13]

/-- Witness for the amended C2 at the LF content (97, 10, 98): its CRLF
variant hashes to the same digest. -/
theorem text_digest_crlf_only_witness :
    compute_digest [97, 10, 98] "text"
      = some (md5HexUpper (replaceCrlf [97, 10, 98]))
    ∧ compute_digest (crlfExpand [97, 10, 98]) "text"
      = compute_digest [97, 10, 98] "text" :=
  text_digest_crlf_only [97, 10, 98] (by decide)

/-- C7. For every file digested with the utf16 content-kind, the digest is
the MD5 of the whole content decoded from UTF-16 (honouring and stripping
its byte-order mark), re-encoded to UTF-8 and CRLF-normalised; moreover at
a concrete BOM-carrying UTF-16 file the digest equals the digest of the
re-encoded text and differs from the MD5 of the raw UTF-16 bytes, so the
raw bytes are not checksummed directly. -/
theorem utf16_digest_via_decode :
    (∀ raw : List Nat, compute_digest raw "utf16"
      = (utf16Decode raw).map (fun cs => md5HexUpper (replaceCrlf (utf8Encode cs))))
    ∧ compute_digest [255, 254, 104, 0] "utf16" = some (md5HexUpper [104])
    ∧ compute_digest [255, 254, 104, 0] "utf16"
      ≠ some (md5HexUpper [255, 254, 104, 0]) := by
  refine ⟨?_, by decide, by decide⟩
  intro raw
  unfold compute_digest
  rw [if_neg (by decide), if_neg (by decide), if_pos (by decide)]
  unfold utf16Stream
  rw [Option.map_map]
  rfl

/-- Prepending the byte-order mark is undone by `stripBomSig`. -/
theorem stripBomSig_bom_append (l : List Nat) :
    stripBomSig (bomUtf8 ++ l) = l := by
  unfold stripBomSig
  rw [if_pos (List.isPrefixOf_iff_prefix.mpr ⟨l, rfl⟩)]
  rfl

/-- Content not starting with the byte-order mark is unchanged by
`stripBomSig`. -/
theorem stripBomSig_of_not_prefix (l : List Nat) (h : ¬ bomUtf8 <+: l) :
    stripBomSig l = l := by
  unfold stripBomSig
  rw [if_neg (by intro hh; exact h (List.isPrefixOf_iff_prefix.mp hh))]

/-- A line processed by the utf8 branch hashes the same with or without a
leading byte-order mark. -/
theorem utf8LineBytes_bom (l : List Nat) (h : ¬ bomUtf8 <+: l) :
    utf8LineBytes (bomUtf8 ++ l) = utf8LineBytes l := by
  unfold utf8LineBytes
  rw [stripBomSig_bom_append, stripBomSig_of_not_prefix l h]

/-- The utf8 hash stream ignores a leading byte-order mark: the mark merges
into the first line (its bytes contain no newline) and is stripped there. -/
theorem utf8Stream_bom (c : List Nat) (hb : ¬ bomUtf8 <+: c) :
    utf8Stream (bomUtf8 ++ c) = utf8Stream c := by
  rcases h0 : splitLines c with _ | ⟨l, ls⟩
  · have hc : c = [] := (splitLines_eq_nil c).mp h0
    subst hc
    decide
  · have h191 : splitLines (191 :: c) = (191 :: l) :: ls :=
      splitLines_cons_ne10_cons 191 c l ls (by decide) h0
    have h187 : splitLines (187 :: 191 :: c) = (187 :: 191 :: l) :: ls :=
      splitLines_cons_ne10_cons 187 _ _ _ (by decide) h191
    have h239 : splitLines (239 :: 187 :: 191 :: c) = (239 :: 187 :: 191 :: l) :: ls :=
      splitLines_cons_ne10_cons 239 _ _ _ (by decide) h187
    have hl : ¬ bomUtf8 <+: l := by
      intro hh
      exact hb (hh.trans (splitLines_first_front c l ls h0))
    unfold utf8Stream
    have hbc : bomUtf8 ++ c = 239 :: 187 :: 191 :: c := rfl
    rw [hbc, h239, h0]
    have hline : utf8LineBytes (239 :: 187 :: 191 :: l) = utf8LineBytes l := by
      have hb2 := utf8LineBytes_bom l hl
      simpa [bomUtf8] using hb2
    rw [List.mapM_cons, List.mapM_cons, hline]

/-- C6. If a file digests successfully under the utf8 content-kind and does
not itself begin with the UTF-8 byte-order mark, then the same bytes with a
leading byte-order mark prepended digest to the identical string: the mark
is stripped before checksumming. -/
theorem utf8_digest_bom_stripped (c : List Nat) (s : String)
    (hb : ¬ bomUtf8 <+: c) (h : compute_digest c "utf8" = some s) :
    compute_digest (bomUtf8 ++ c) "utf8" = some s := by
  have hkey : ∀ cc : List Nat,
      compute_digest cc "utf8" = (utf8Stream cc).map md5HexUpper := by
    intro cc
    unfold compute_digest
    rw [if_neg (by decide), if_pos (by decide)]
  rw [hkey] at h ⊢
  rw [utf8Stream_bom c hb]
  exact h

/-- Witness for C6 at the one byte file 104: with the byte-order mark
prepended the utf8 digest is unchanged. -/
theorem utf8_digest_bom_stripped_witness :
    compute_digest (bomUtf8 ++ [104]) "utf8" = some (md5HexUpper [104]) :=
  utf8_digest_bom_stripped [104] (md5HexUpper [104]) (by decide) (by decide)

/-! ## Lemmas about the path index and the partition of keys -/

/-- A record found in the index has the key it was found under. -/
theorem dictLookup_key {α : Type} (keyOf : α → String) (xs : List α)
    (k : String) (v : α) (h : dictLookup keyOf xs k = some v) : keyOf v = k := by
  unfold dictLookup at h
  have hv := List.mem_of_mem_getLast? h
  have := List.mem_filter.mp hv
  simpa using this.2

/-- Membership in the key list of the index. -/
theorem mem_dictKeys {α : Type} (keyOf : α → String) (xs : List α) (k : String) :
    k ∈ dictKeys keyOf xs ↔ ∃ x ∈ xs, keyOf x = k := by
  unfold dictKeys
  rw [List.mem_dedup, List.mem_map]

/-- The key list of the index has no duplicates. -/
theorem dictKeys_nodup {α : Type} (keyOf : α → String) (xs : List α) :
    (dictKeys keyOf xs).Nodup :=
  List.nodup_dedup _

/-- Every key of the index resolves to a record. -/
theorem dictLookup_isSome {α : Type} (keyOf : α → String) (xs : List α)
    (k : String) (h : k ∈ dictKeys keyOf xs) :
    ∃ v, dictLookup keyOf xs k = some v := by
  rcases (mem_dictKeys keyOf xs k).mp h with ⟨x, hx, hk⟩
  unfold dictLookup
  rcases hlast : (xs.filter (fun y => keyOf y == k)).getLast? with _ | v
  · rw [List.getLast?_eq_none_iff] at hlast
    have : x ∈ xs.filter (fun y => keyOf y == k) :=
      List.mem_filter.mpr ⟨hx, by simp [hk]⟩
    rw [hlast] at this
    exact absurd this (List.not_mem_nil x)
  · exact ⟨v, rfl⟩

/-- Resolving a key list through the index and reading keys back is the
identity, provided every key is a key of the index. -/
theorem filterMap_lookup_keys {α : Type} (keyOf : α → String) (xs : List α) :
    ∀ ps : List String, (∀ p ∈ ps, p ∈ dictKeys keyOf xs) →
      (ps.filterMap (dictLookup keyOf xs)).map keyOf = ps := by
  intro ps
  induction ps with
  | nil => intro _; rfl
  | cons p ps ih =>
    intro h
    obtain ⟨v, hv⟩ := dictLookup_isSome keyOf xs p (h p (by simp))
    rw [List.filterMap_cons, hv]
    simp only [List.map_cons]
    rw [dictLookup_key keyOf xs p v hv, ih (fun q hq => h q (by simp [hq]))]

/-- A successful `mapM` relates inputs and outputs pointwise. -/
theorem mapM_forall₂ {α β : Type} (f : α → Option β) :
    ∀ (l : List α) (r : List β), l.mapM f = some r →
      List.Forall₂ (fun a b => f a = some b) l r := by
  intro l
  induction l with
  | nil =>
    intro r h
    rw [List.mapM_nil] at h
    have : r = [] := (Option.some_inj.mp h).symm
    subst this
    exact List.Forall₂.nil
  | cons a l ih =>
    intro r h
    rw [List.mapM_cons] at h
    rcases hfa : f a with _ | b <;> rw [hfa] at h
    · exact absurd h (by simp)
    · rcases hml : l.mapM f with _ | r2 <;> rw [hml] at h
      · exact absurd h (by simp)
      · have : b :: r2 = r := Option.some_inj.mp h
        subst this
        exact List.Forall₂.cons hfa (ih r2 hml)

/-- Pointwise related lists have equal images under compatible maps. -/
theorem forall₂_map_eq {α β γ : Type} {R : α → β → Prop} {f : α → γ} {g : β → γ}
    (hfg : ∀ a b, R a b → f a = g b) :
    ∀ {l : List α} {r : List β}, List.Forall₂ R l r → l.map f = r.map g := by
  intro l r h
  induction h with
  | nil => rfl
  | cons hab _ ih => simp only [List.map_cons]; rw [hfg _ _ hab, ih]

/-- The source record inside a `compare_matching` result keeps the folded
key of the input pair, and the destination record is returned as given. -/
theorem compare_matching_fst_key (s : GitFile) (d : P4File)
    (r : Bool × Bool × GitFile × P4File)
    (h : P4GitFileDiff.compare_matching s d = some r) :
    gitKey r.2.2.1 = gitKey s := by
  unfold P4GitFileDiff.compare_matching at h
  split at h
  · rw [← Option.some_inj.mp h]
  · split at h
    · rw [← Option.some_inj.mp h]
    · rcases hcd : s.compute_digest d.head_type with _ | sd <;> rw [hcd] at h
      · exact absurd h (by simp)
      · rw [← Option.some_inj.mp h]
        show gitKey sd.1 = gitKey s
        unfold gitKey
        rw [GitFile.compute_digest_relative_path s d.head_type sd.1 sd.2
          (by rw [hcd])]

/-- The folded source keys of the shared pairs are the shared keys. -/
theorem sharedPairList_keys (src_files : List GitFile) (dst_files : List P4File) :
    (sharedPairList src_files dst_files).map (fun sd => gitKey sd.1)
      = sharedKeyList src_files dst_files := by
  unfold sharedPairList
  have hgen : ∀ ps : List String,
      (∀ p ∈ ps, p ∈ dictKeys gitKey src_files ∧ p ∈ dictKeys p4Key dst_files) →
      ((ps.filterMap (fun p =>
        match dictLookup gitKey src_files p, dictLookup p4Key dst_files p with
        | some s, some d => some (s, d)
        | _, _ => none)).map (fun sd => gitKey sd.1)) = ps := by
    intro ps
    induction ps with
    | nil => intro _; rfl
    | cons p ps ih =>
      intro h
      obtain ⟨hS, hD⟩ := h p (by simp)
      obtain ⟨s, hs⟩ := dictLookup_isSome gitKey src_files p hS
      obtain ⟨d, hd⟩ := dictLookup_isSome p4Key dst_files p hD
      rw [List.filterMap_cons, hs, hd]
      simp only [List.map_cons]
      rw [show gitKey s = p from dictLookup_key gitKey src_files p s hs,
        ih (fun q hq => h q (by simp [hq]))]
  exact hgen _ (fun p hp =>
    ⟨List.mem_of_mem_filter hp, by simpa using List.of_mem_filter hp⟩)

/-- C1. The classification of `compare` partitions the union of the
case-folded keys of both trees: every key of the union lies in exactly one
of the source-only, destination-only, case-mismatch, changed or unchanged
key sets, and every key outside the union lies in none. -/
theorem compare_partition (src_files : List GitFile) (dst_files : List P4File)
    (diff : P4GitFileDiff)
    (h : P4GitFileDiff.compare src_files dst_files = some diff) :
    ∀ k, classCount src_files dst_files diff k
      = if k ∈ unionKeys src_files dst_files then 1 else 0 := by
  obtain ⟨results, hmapm, hF⟩ := Option.map_eq_some'.mp h
  have hso : diff.src_only = srcOnlyList src_files dst_files := by
    rw [← hF]
  have hdo : diff.dst_only = dstOnlyList src_files dst_files := by
    rw [← hF]
  have hcm : diff.case_mismatch = results.filterMap
      (fun r => if r.1 then some (r.2.2.1, r.2.2.2) else none) := by
    rw [← hF]
  have hch : diff.changed = results.filterMap
      (fun r => if r.1 then none
        else if r.2.1 then some (r.2.2.1, r.2.2.2) else none) := by
    rw [← hF]
  have hSOkeys : srcOnlyKeys diff
      = (dictKeys gitKey src_files).filter
          (fun p => decide (p ∉ dictKeys p4Key dst_files)) := by
    rw [srcOnlyKeys, hso, srcOnlyList]
    exact filterMap_lookup_keys gitKey src_files _
      (fun p hp => List.mem_of_mem_filter hp)
  have hDOkeys : dstOnlyKeys diff
      = (dictKeys p4Key dst_files).filter
          (fun p => decide (p ∉ dictKeys gitKey src_files)) := by
    rw [dstOnlyKeys, hdo, dstOnlyList]
    exact filterMap_lookup_keys p4Key dst_files _
      (fun p hp => List.mem_of_mem_filter hp)
  have hRkeys : results.map (fun r => gitKey r.2.2.1)
      = sharedKeyList src_files dst_files := by
    have hf2 := mapM_forall₂ _ _ _ hmapm
    have hmapeq := forall₂_map_eq
      (f := fun sd : GitFile × P4File => gitKey sd.1)
      (g := fun r : Bool × Bool × GitFile × P4File => gitKey r.2.2.1)
      (fun sd r hr => (compare_matching_fst_key sd.1 sd.2 r hr).symm) hf2
    rw [← hmapeq, sharedPairList_keys]
  have hRnodup : (results.map (fun r => gitKey r.2.2.1)).Nodup := by
    rw [hRkeys]
    exact (dictKeys_nodup gitKey src_files).filter _
  have hinj := List.inj_on_of_nodup_map hRnodup
  have hsharedSD : ∀ p, p ∈ sharedKeyList src_files dst_files →
      p ∈ dictKeys gitKey src_files ∧ p ∈ dictKeys p4Key dst_files :=
    fun p hp => ⟨List.mem_of_mem_filter hp, by simpa using List.of_mem_filter hp⟩
  have hcmK : ∀ k, k ∈ caseMismatchKeys diff
      ↔ ∃ r ∈ results, r.1 = true ∧ gitKey r.2.2.1 = k := by
    intro k
    rw [caseMismatchKeys, hcm]
    constructor
    · intro hk
      rcases List.mem_map.mp hk with ⟨sd, hsd, hksd⟩
      rcases List.mem_filterMap.mp hsd with ⟨r, hr, hfr⟩
      by_cases h1 : r.1
      · rw [if_pos h1] at hfr
        refine ⟨r, hr, by simpa using h1, ?_⟩
        rw [← hksd, ← Option.some_inj.mp hfr]
      · rw [if_neg h1] at hfr
        exact absurd hfr (by simp)
    · rintro ⟨r, hr, h1, hk⟩
      exact List.mem_map.mpr ⟨(r.2.2.1, r.2.2.2),
        List.mem_filterMap.mpr ⟨r, hr, by rw [if_pos (by simp [h1])]⟩, hk⟩
  have hchK : ∀ k, k ∈ changedKeys diff
      ↔ ∃ r ∈ results, r.1 = false ∧ r.2.1 = true ∧ gitKey r.2.2.1 = k := by
    intro k
    rw [changedKeys, hch]
    constructor
    · intro hk
      rcases List.mem_map.mp hk with ⟨sd, hsd, hksd⟩
      rcases List.mem_filterMap.mp hsd with ⟨r, hr, hfr⟩
      by_cases h1 : r.1
      · rw [if_pos h1] at hfr
        exact absurd hfr (by simp)
      · rw [if_neg h1] at hfr
        by_cases h2 : r.2.1
        · rw [if_pos h2] at hfr
          refine ⟨r, hr, by simpa using h1, by simpa using h2, ?_⟩
          rw [← hksd, ← Option.some_inj.mp hfr]
        · rw [if_neg h2] at hfr
          exact absurd hfr (by simp)
    · rintro ⟨r, hr, h1, h2, hk⟩
      refine List.mem_map.mpr ⟨(r.2.2.1, r.2.2.2),
        List.mem_filterMap.mpr ⟨r, hr, ?_⟩, hk⟩
      rw [if_neg (by simp [h1]), if_pos (by simp [h2])]
  have hcmShared : ∀ k, k ∈ caseMismatchKeys diff →
      k ∈ sharedKeyList src_files dst_files := by
    intro k hk
    rcases (hcmK k).mp hk with ⟨r, hr, _, hkr⟩
    rw [← hRkeys]
    exact List.mem_map.mpr ⟨r, hr, hkr⟩
  have hchShared : ∀ k, k ∈ changedKeys diff →
      k ∈ sharedKeyList src_files dst_files := by
    intro k hk
    rcases (hchK k).mp hk with ⟨r, hr, _, _, hkr⟩
    rw [← hRkeys]
    exact List.mem_map.mpr ⟨r, hr, hkr⟩
  intro k
  by_cases hkS : k ∈ dictKeys gitKey src_files
    <;> by_cases hkD : k ∈ dictKeys p4Key dst_files
  · -- shared key
    have hkU : k ∈ unionKeys src_files dst_files :=
      List.mem_append.mpr (Or.inl hkS)
    have hso0 : k ∉ srcOnlyKeys diff := by
      rw [hSOkeys]
      intro hk
      have := List.of_mem_filter hk
      simp at this
      exact this hkD
    have hdo0 : k ∉ dstOnlyKeys diff := by
      rw [hDOkeys]
      intro hk
      have := List.of_mem_filter hk
      simp at this
      exact this hkS
    have hkSh : k ∈ sharedKeyList src_files dst_files :=
      List.mem_filter.mpr ⟨hkS, by simpa using hkD⟩
    have hkR : k ∈ results.map (fun r => gitKey r.2.2.1) := by
      rw [hRkeys]
      exact hkSh
    rcases List.mem_map.mp hkR with ⟨r, hrmem, hkr⟩
    cases hb1 : r.1 with
    | true =>
      have hcm1 : k ∈ caseMismatchKeys diff := (hcmK k).mpr ⟨r, hrmem, hb1, hkr⟩
      have hch0 : k ∉ changedKeys diff := by
        intro hk2
        rcases (hchK k).mp hk2 with ⟨r2, hr2, h1, _, hk2r⟩
        have hre : r2 = r := hinj hr2 hrmem (hk2r.trans hkr.symm)
        rw [hre, hb1] at h1
        simp at h1
      have hun0 : k ∉ unchangedKeys src_files dst_files diff := by
        intro hk2
        have := List.of_mem_filter hk2
        simp at this
        exact absurd hcm1 this.2.2.1
      simp [classCount, hso0, hdo0, hcm1, hch0, hun0, hkU]
    | false =>
      cases hb2 : r.2.1 with
      | true =>
        have hch1 : k ∈ changedKeys diff := (hchK k).mpr ⟨r, hrmem, hb1, hb2, hkr⟩
        have hcm0 : k ∉ caseMismatchKeys diff := by
          intro hk2
          rcases (hcmK k).mp hk2 with ⟨r2, hr2, h1, hk2r⟩
          have hre : r2 = r := hinj hr2 hrmem (hk2r.trans hkr.symm)
          rw [hre, hb1] at h1
          simp at h1
        have hun0 : k ∉ unchangedKeys src_files dst_files diff := by
          intro hk2
          have := List.of_mem_filter hk2
          simp at this
          exact absurd hch1 this.2.2.2
        simp [classCount, hso0, hdo0, hcm0, hch1, hun0, hkU]
      | false =>
        have hcm0 : k ∉ caseMismatchKeys diff := by
          intro hk2
          rcases (hcmK k).mp hk2 with ⟨r2, hr2, h1, hk2r⟩
          have hre : r2 = r := hinj hr2 hrmem (hk2r.trans hkr.symm)
          rw [hre, hb1] at h1
          simp at h1
        have hch0 : k ∉ changedKeys diff := by
          intro hk2
          rcases (hchK k).mp hk2 with ⟨r2, hr2, h1, h2, hk2r⟩
          have hre : r2 = r := hinj hr2 hrmem (hk2r.trans hkr.symm)
          rw [hre, hb2] at h2
          simp at h2
        have hun1 : k ∈ unchangedKeys src_files dst_files diff :=
          List.mem_filter.mpr ⟨hkU, by simp [hso0, hdo0, hcm0, hch0]⟩
        simp [classCount, hso0, hdo0, hcm0, hch0, hun1, hkU]
  · -- source-only key
    have hkU : k ∈ unionKeys src_files dst_files :=
      List.mem_append.mpr (Or.inl hkS)
    have hso1 : k ∈ srcOnlyKeys diff := by
      rw [hSOkeys]
      exact List.mem_filter.mpr ⟨hkS, by simpa using hkD⟩
    have hdo0 : k ∉ dstOnlyKeys diff := by
      rw [hDOkeys]
      intro hk
      exact hkD (List.mem_of_mem_filter hk)
    have hcm0 : k ∉ caseMismatchKeys diff := by
      intro hk
      exact hkD ((hsharedSD k (hcmShared k hk)).2)
    have hch0 : k ∉ changedKeys diff := by
      intro hk
      exact hkD ((hsharedSD k (hchShared k hk)).2)
    have hun0 : k ∉ unchangedKeys src_files dst_files diff := by
      intro hk2
      have := List.of_mem_filter hk2
      simp at this
      exact absurd hso1 this.1
    simp [classCount, hso1, hdo0, hcm0, hch0, hun0, hkU]
  · -- destination-only key
    have hkU : k ∈ unionKeys src_files dst_files :=
      List.mem_append.mpr (Or.inr hkD)
    have hso0 : k ∉ srcOnlyKeys diff := by
      rw [hSOkeys]
      intro hk
      exact hkS (List.mem_of_mem_filter hk)
    have hdo1 : k ∈ dstOnlyKeys diff := by
      rw [hDOkeys]
      exact List.mem_filter.mpr ⟨hkD, by simpa using hkS⟩
    have hcm0 : k ∉ caseMismatchKeys diff := by
      intro hk
      exact hkS ((hsharedSD k (hcmShared k hk)).1)
    have hch0 : k ∉ changedKeys diff := by
      intro hk
      exact hkS ((hsharedSD k (hchShared k hk)).1)
    have hun0 : k ∉ unchangedKeys src_files dst_files diff := by
      intro hk2
      have := List.of_mem_filter hk2
      simp at this
      exact absurd hdo1 this.2.1
    simp [classCount, hso0, hdo1, hcm0, hch0, hun0, hkU]
  · -- key outside both trees
    have hkU : k ∉ unionKeys src_files dst_files := by
      intro hk
      rcases List.mem_append.mp hk with h1 | h2
      · exact hkS h1
      · exact hkD h2
    have hso0 : k ∉ srcOnlyKeys diff := by
      rw [hSOkeys]
      intro hk
      exact hkS (List.mem_of_mem_filter hk)
    have hdo0 : k ∉ dstOnlyKeys diff := by
      rw [hDOkeys]
      intro hk
      exact hkD (List.mem_of_mem_filter hk)
    have hcm0 : k ∉ caseMismatchKeys diff := by
      intro hk
      exact hkS ((hsharedSD k (hcmShared k hk)).1)
    have hch0 : k ∉ changedKeys diff := by
      intro hk
      exact hkS ((hsharedSD k (hchShared k hk)).1)
    have hun0 : k ∉ unchangedKeys src_files dst_files diff := by
      intro hk2
      exact hkU (List.mem_of_mem_filter hk2)
    simp [classCount, hso0, hdo0, hcm0, hch0, hun0, hkU]

/-- Witness for C1 at a two-file source against a two-file destination with
one exclusive file each and one shared case-mismatched key: the shared key
is counted exactly once. -/
theorem compare_partition_witness :
    classCount
      [⟨"r", "New.txt", [], none, true⟩, ⟨"r", "B.bin", [49], none, true⟩]
      [⟨"//d/b.bin", "/c/b.bin", "add", "binary", "7", "99", "X", "b.bin"⟩,
       ⟨"//d/old.dat", "/c/old.dat", "add", "binary", "7", "9", "X", "old.dat"⟩]
      ⟨[⟨"r", "New.txt", [], none, true⟩],
       [⟨"//d/old.dat", "/c/old.dat", "add", "binary", "7", "9", "X", "old.dat"⟩],
       [(⟨"r", "B.bin", [49], none, true⟩,
         ⟨"//d/b.bin", "/c/b.bin", "add", "binary", "7", "99", "X", "b.bin"⟩)], []⟩
      "b.bin"
      = if "b.bin" ∈ unionKeys
          [⟨"r", "New.txt", [], none, true⟩, ⟨"r", "B.bin", [49], none, true⟩]
          [⟨"//d/b.bin", "/c/b.bin", "add", "binary", "7", "99", "X", "b.bin"⟩,
           ⟨"//d/old.dat", "/c/old.dat", "add", "binary", "7", "9", "X", "old.dat"⟩]
        then 1 else 0 :=
  compare_partition _ _ _ (by decide) "b.bin"
